import Mathlib

/-!
Verification of the surround-pair locator (`helix-core/src/surround.rs`).

The buffer (`RopeSlice`) is embedded as `List Char`; a buffer offset is a
`Nat` index; `text[i]?` models `text.char(i)` (the Rust call panics out of
bounds, the model returns `none` there — all theorems about in-bounds
behaviour carry explicit bounds hypotheses).  A selection is embedded as the
list of its cursors' head offsets, which is the only part of `Selection`
the source consumes.
-/

set_option maxHeartbeats 1000000

namespace Surround

/-- Pair table `PAIRS` from the source.  The fifth and later entries are the
guillemet, corner-bracket and fullwidth-paren pairs; the brace pair is
written with `Char.ofNat` (code points 123 and 125). -/
def PAIRS : List (Char × Char) :=
  [('(', ')'), ('[', ']'), (Char.ofNat 123, Char.ofNat 125), ('<', '>'),
   ('«', '»'), ('「', '」'), ('（', '）')]

/-- `get_pair` from the source: first table entry whose open or close member
equals `ch`, else `(ch, ch)`. -/
def get_pair (ch : Char) : Char × Char :=
  (PAIRS.find? fun p => p.1 == ch || p.2 == ch).getD (ch, ch)

/-- The backward scan of `find_balanced_pairs_pos` (the `loop` over
`chars.prev()`): `scan_open text opn cls p skip` examines offsets
`p-1, p-2, …, 0`; a `close` increments the skip counter, an `open` with
positive skip decrements it, an `open` with zero skip is the result.
`none` models the iterator running out at the buffer start. -/
def scan_open (text : List Char) (opn cls : Char) : Nat → Nat → Option Nat
  | 0, _ => none
  | p + 1, skip =>
    match text[p]? with
    | none => none
    | some c =>
      if c = opn then
        if 0 < skip then scan_open text opn cls p (skip - 1) else some p
      else if c = cls then scan_open text opn cls p (skip + 1)
      else scan_open text opn cls p skip

/-- The forward scan of `find_balanced_pairs_pos` (the `for` over
`text.slice(open_pos + 1..).chars().enumerate()`): the list argument is the
remaining slice and `j` the absolute offset of its head (the source carries
the relative index `i` and returns `open_pos + 1 + i`; carrying the absolute
offset is the same bookkeeping).  `count` is the `i32` depth counter,
decremented on `close` and returning when it hits zero. -/
def scan_close (opn cls : Char) : List Char → Nat → Int → Option Nat
  | [], _, _ => none
  | c :: rest, j, count =>
    if c = opn then scan_close opn cls rest (j + 1) (count + 1)
    else if c = cls then
      if count - 1 = 0 then some j else scan_close opn cls rest (j + 1) (count - 1)
    else scan_close opn cls rest (j + 1) count

/-- `find_balanced_pairs_pos` from the source: `(opn, cls) = get_pair ch`;
the opening offset is `pos` itself when the character at `pos` equals `opn`,
otherwise the result of the backward scan; the closing offset is found by the
forward scan from just after the opening offset with depth 1. -/
def find_balanced_pairs_pos (text : List Char) (ch : Char) (pos : Nat) :
    Option (Nat × Nat) :=
  match
    (if text[pos]? = some (get_pair ch).1 then some pos
     else scan_open text (get_pair ch).1 (get_pair ch).2 pos 0) with
  | none => none
  | some open_pos =>
    match
      scan_close (get_pair ch).1 (get_pair ch).2
        (text.drop (open_pos + 1)) (open_pos + 1) 1 with
    | none => none
    | some close_pos => some (open_pos, close_pos)

/-- Modelled from the spec: the external directional search
`search::find_nth_prev` is not under `src/`; per the spec it scans backward
from `pos` (exclusive) and returns the offset of the `n`-th occurrence of
`ch`.  Both call sites pass the inclusive-of-start flag as `true`, which is
the behaviour modelled (the returned offset is the occurrence itself). -/
def find_nth_prev (text : List Char) (ch : Char) (pos n : Nat) : Option Nat :=
  (((List.range pos).reverse).filter fun i => decide (text[i]? = some ch))[n - 1]?

/-- Modelled from the spec: the external directional search
`search::find_nth_next` is not under `src/`; per the spec it scans forward
from `pos` (exclusive) and returns the offset of the `n`-th occurrence of
`ch`, with the inclusive-of-start flag fixed to `true` as at the call sites. -/
def find_nth_next (text : List Char) (ch : Char) (pos n : Nat) : Option Nat :=
  ((List.range text.length).filter
    fun i => decide (pos < i) && decide (text[i]? = some ch))[n - 1]?

/-- `find_nth_pairs_pos` from the source.  The opening search runs first
(its `?` can return early); then the argument `pos - 1` of the closing
search is evaluated on a `usize`, which panics on underflow when `pos = 0`
— modelled as `Except.error ()`. -/
def find_nth_pairs_pos (text : List Char) (ch : Char) (pos n : Nat) :
    Except Unit (Option (Nat × Nat)) :=
  match find_nth_prev text (get_pair ch).1 (pos + 1) n with
  | none => Except.ok none
  | some open_pos =>
    if pos = 0 then Except.error ()
    else
      match find_nth_next text (get_pair ch).2 (pos - 1) n with
      | none => Except.ok none
      | some close_pos => Except.ok (some (open_pos, close_pos))

/-- The loop body of `get_surround_pos`: `change_pos` is the accumulator of
already emitted offsets, the second list the remaining cursor head offsets. -/
def get_surround_pos_aux (text : List Char) (ch : Char) :
    List Nat → List Nat → Option (List Nat)
  | change_pos, [] => some change_pos
  | change_pos, head :: rest =>
    match find_balanced_pairs_pos text ch head with
    | none => none
    | some (open_pos, close_pos) =>
      if open_pos ∈ change_pos ∨ close_pos ∈ change_pos then none
      else get_surround_pos_aux text ch (change_pos ++ [open_pos, close_pos]) rest

/-- `get_surround_pos` from the source: fold `find_balanced_pairs_pos` over
the cursors' head offsets, bailing out on a missing pair or on an offset
already emitted.  `skip` is accepted and unused, as in the source. -/
def get_surround_pos (text : List Char) (selection : List Nat) (ch : Char)
    (skip : Nat) : Option (List Nat) :=
  get_surround_pos_aux text ch [] selection

/-! Specification-side notions used to state the claims: the running bracket
depth of the buffer with respect to an `(opn, cls)` pair, balance of the
whole buffer, and the matched (properly nested) pairs. -/

/-- Depth contribution of one character: `+1` for the open member, `-1` for
the close member, `0` otherwise (the open member wins when both coincide,
mirroring the branch order of the source's scans). -/
def delta (opn cls c : Char) : Int :=
  if c = opn then 1 else if c = cls then -1 else 0

/-- Bracket depth of the prefix of length `i`. -/
def depth (text : List Char) (opn cls : Char) : Nat → Int
  | 0 => 0
  | i + 1 =>
    depth text opn cls i +
      (match text[i]? with | some c => delta opn cls c | none => 0)

/-- The buffer's bracket text for `(opn, cls)` is balanced: the total depth
is zero and no prefix closes more pairs than it opened. -/
def Balanced (text : List Char) (opn cls : Char) : Prop :=
  depth text opn cls text.length = 0 ∧
    ∀ i, i ≤ text.length → 0 ≤ depth text opn cls i

/-- `(o, c)` is a matched pair of `(opn, cls)` in the buffer: `o` holds the
open member, `c` the close member, the depth returns at `c + 1` to its value
at `o`, and stays strictly above it in between. -/
def Matched (text : List Char) (opn cls : Char) (o c : Nat) : Prop :=
  o < c ∧ c < text.length ∧ text[o]? = some opn ∧ text[c]? = some cls ∧
    depth text opn cls (c + 1) = depth text opn cls o ∧
    ∀ k, k ≤ c → o < k → depth text opn cls o < depth text opn cls k

/-- Balance of a concrete buffer is checkable by evaluation. -/
instance (text : List Char) (opn cls : Char) : Decidable (Balanced text opn cls) :=
  decidable_of_iff
    (depth text opn cls text.length = 0 ∧
      ∀ i, i ≤ text.length → 0 ≤ depth text opn cls i) Iff.rfl

/-- Matchedness of a concrete pair of offsets is checkable by evaluation. -/
instance (text : List Char) (opn cls : Char) (o c : Nat) :
    Decidable (Matched text opn cls o c) :=
  decidable_of_iff
    (o < c ∧ c < text.length ∧ text[o]? = some opn ∧ text[c]? = some cls ∧
      depth text opn cls (c + 1) = depth text opn cls o ∧
      ∀ k, k ≤ c → o < k → depth text opn cls o < depth text opn cls k) Iff.rfl

/-- Reference form of the backward scan: the nearest offset below `p`
holding the open member with depth level `D` just after it. -/
def refOpen (text : List Char) (opn cls : Char) (D : Int) : Nat → Option Nat
  | 0 => none
  | p + 1 =>
    if text[p]? = some opn ∧ depth text opn cls (p + 1) = D then some p
    else refOpen text opn cls D p

/-- Flatten a list of matched spans into the offset list `get_surround_pos`
emits. -/
def flatPairs : List (Nat × Nat) → List Nat
  | [] => []
  | (o, c) :: rest => o :: c :: flatPairs rest

/-- Some pair in the list repeats an offset already emitted before it (the
accumulator `acc` holds the offsets emitted so far). -/
def hits (acc : List Nat) : List (Nat × Nat) → Prop
  | [] => False
  | p :: rest => (p.1 ∈ acc ∨ p.2 ∈ acc) ∨ hits (acc ++ [p.1, p.2]) rest

/-- The buffer of the source's `test_find_nth_pairs_pos_skip` test. -/
def doc10 : List Char := "(so (many (good) text) here)".toList

/-- Decidable equality for `Except`, so that concrete runs of
`find_nth_pairs_pos` can be checked by evaluation. -/
instance {ε α : Type _} [DecidableEq ε] [DecidableEq α] : DecidableEq (Except ε α)
  | Except.ok x, Except.ok y =>
    if h : x = y then isTrue (h ▸ rfl) else isFalse fun hc => h (by cases hc; rfl)
  | Except.ok _, Except.error _ => isFalse fun hc => Except.noConfusion hc
  | Except.error _, Except.ok _ => isFalse fun hc => Except.noConfusion hc
  | Except.error x, Except.error y =>
    if h : x = y then isTrue (h ▸ rfl) else isFalse fun hc => h (by cases hc; rfl)

/-! Helper lemmas. -/

lemma scan_close_self_none {opn cls : Char} (h : opn = cls) :
    ∀ (l : List Char) (j : Nat) (cnt : Int), scan_close opn cls l j cnt = none := by
  intro l
  induction l with
  | nil => intro j cnt; rfl
  | cons c rest ih =>
    intro j cnt
    by_cases hc : c = opn
    · simp only [scan_close, if_pos hc]
      exact ih _ _
    · have hc2 : ¬c = cls := fun hcc => hc (hcc.trans h.symm)
      simp only [scan_close, if_neg hc, if_neg hc2]
      exact ih _ _

lemma find_balanced_self_none (text : List Char) (ch : Char) (pos : Nat)
    (h : (get_pair ch).1 = (get_pair ch).2) :
    find_balanced_pairs_pos text ch pos = none := by
  unfold find_balanced_pairs_pos
  simp only [scan_close_self_none h]
  cases (if text[pos]? = some (get_pair ch).1 then some pos
    else scan_open text (get_pair ch).1 (get_pair ch).2 pos 0) <;> rfl

lemma scan_open_char (text : List Char) (opn cls : Char) :
    ∀ (p skip o : Nat), scan_open text opn cls p skip = some o →
      text[o]? = some opn := by
  intro p
  induction p with
  | zero => intro skip o h; exact absurd h (by simp [scan_open])
  | succ p ih =>
    intro skip o h
    cases hc : text[p]? with
    | none =>
      simp only [scan_open, hc] at h
      exact Option.noConfusion h
    | some c =>
      simp only [scan_open, hc] at h
      split_ifs at h with h1 h2 h3
      · exact ih _ _ h
      · cases h; rw [hc, h1]
      · exact ih _ _ h
      · exact ih _ _ h

lemma scan_close_char (opn cls : Char) :
    ∀ (l : List Char) (j : Nat) (cnt : Int) (r : Nat),
      scan_close opn cls l j cnt = some r →
      j ≤ r ∧ l[r - j]? = some cls := by
  intro l
  induction l with
  | nil => intro j cnt r h; exact absurd h (by simp [scan_close])
  | cons c rest ih =>
    intro j cnt r h
    simp only [scan_close] at h
    have step : scan_close opn cls rest (j + 1) (cnt + 1) = some r ∨
        scan_close opn cls rest (j + 1) (cnt - 1) = some r ∨
        scan_close opn cls rest (j + 1) cnt = some r →
        j ≤ r ∧ (c :: rest)[r - j]? = some cls := by
      rintro (hrec | hrec | hrec) <;>
      · obtain ⟨hle, hget⟩ := ih _ _ _ hrec
        refine ⟨by omega, ?_⟩
        have heq : r - j = (r - (j + 1)) + 1 := by omega
        rw [heq, List.getElem?_cons_succ]
        exact hget
    split_ifs at h with h1 h2 h3
    · exact step (Or.inl h)
    · cases h
      simp [h2]
    · exact step (Or.inr (Or.inl h))
    · exact step (Or.inr (Or.inr h))

lemma find_balanced_eq_some (text : List Char) (ch : Char) (pos o c : Nat)
    (h : find_balanced_pairs_pos text ch pos = some (o, c)) :
    text[o]? = some (get_pair ch).1 ∧ text[c]? = some (get_pair ch).2 ∧ o < c := by
  unfold find_balanced_pairs_pos at h
  split at h
  next hop => exact Option.noConfusion h
  next op hop =>
    split at h
    next hcl => exact Option.noConfusion h
    next cp hcl =>
      simp only [Option.some.injEq, Prod.mk.injEq] at h
      obtain ⟨h1, h2⟩ := h
      obtain ⟨hle, hget⟩ := scan_close_char _ _ _ _ _ _ hcl
      have hcchar : text[cp]? = some (get_pair ch).2 := by
        rw [List.getElem?_drop] at hget
        rwa [Nat.add_sub_cancel' hle] at hget
      have hochar : text[op]? = some (get_pair ch).1 := by
        by_cases hif : text[pos]? = some (get_pair ch).1
        · rw [if_pos hif] at hop
          cases hop; exact hif
        · rw [if_neg hif] at hop
          exact scan_open_char _ _ _ _ _ _ hop
      exact ⟨h1 ▸ hochar, h2 ▸ hcchar, by omega⟩

lemma find_nth_prev_char (text : List Char) (x : Char) (p n o : Nat)
    (h : find_nth_prev text x p n = some o) :
    o < p ∧ text[o]? = some x := by
  unfold find_nth_prev at h
  have hmem := List.getElem?_mem h
  rw [List.mem_filter] at hmem
  obtain ⟨hmem, hdec⟩ := hmem
  rw [List.mem_reverse, List.mem_range] at hmem
  exact ⟨hmem, of_decide_eq_true hdec⟩

lemma find_nth_next_char (text : List Char) (x : Char) (p n c : Nat)
    (h : find_nth_next text x p n = some c) :
    p < c ∧ text[c]? = some x := by
  unfold find_nth_next at h
  have hmem := List.getElem?_mem h
  rw [List.mem_filter, Bool.and_eq_true] at hmem
  exact ⟨of_decide_eq_true hmem.2.1, of_decide_eq_true hmem.2.2⟩

lemma find_nth_eq_ok_some (text : List Char) (ch : Char) (pos n o c : Nat)
    (h : find_nth_pairs_pos text ch pos n = Except.ok (some (o, c))) :
    o ≤ pos ∧ pos ≤ c ∧ 0 < pos ∧
      text[o]? = some (get_pair ch).1 ∧ text[c]? = some (get_pair ch).2 := by
  unfold find_nth_pairs_pos at h
  split at h
  next hop => injection h with h2; exact Option.noConfusion h2
  next op hop =>
    split_ifs at h with hz
    split at h
    next hcl => injection h with h2; exact Option.noConfusion h2
    next cp hcl =>
      simp only [Except.ok.injEq, Option.some.injEq, Prod.mk.injEq] at h
      obtain ⟨h1, h2⟩ := h
      obtain ⟨h3, h4⟩ := find_nth_prev_char _ _ _ _ _ hop
      obtain ⟨h5, h6⟩ := find_nth_next_char _ _ _ _ _ hcl
      exact ⟨by omega, by omega, by omega, h1 ▸ h4, h2 ▸ h6⟩

/-! Resolution of the individual claims starts here. -/

/-- C2 counterexample: for the self-pairing quote character, with the cursor
at offset 2 strictly between non-nested quotes at offsets 1 and 3 (so both a
prior and a following occurrence exist), `find_balanced_pairs_pos` returns
`none` instead of the claimed nearest occurrences `(1, 3)`. -/
theorem c2_counterexample :
    get_pair (Char.ofNat 34) = (Char.ofNat 34, Char.ofNat 34) ∧
    ['a', Char.ofNat 34, 'b', Char.ofNat 34, 'c'][1]? = some (Char.ofNat 34) ∧
    ['a', Char.ofNat 34, 'b', Char.ofNat 34, 'c'][3]? = some (Char.ofNat 34) ∧
    find_balanced_pairs_pos
      ['a', Char.ofNat 34, 'b', Char.ofNat 34, 'c'] (Char.ofNat 34) 2 = none := by
  constructor
  · decide
  · constructor
    · decide
    · constructor
      · decide
      · exact find_balanced_self_none _ _ _ (by decide)

/-- C2 (amended): for a self-pairing character the two scan directions do
not behave symmetrically — the forward scan tests the `open` member first,
so its depth counter only ever increments and never reaches zero; hence
`find_balanced_pairs_pos` returns absence for every self-pairing character,
on every buffer and cursor offset. -/
theorem c2_self_pair_no_result (text : List Char) (ch : Char) (pos : Nat)
    (h : (get_pair ch).1 = (get_pair ch).2) :
    find_balanced_pairs_pos text ch pos = none :=
  find_balanced_self_none text ch pos h

/-- Witness for C2's amended theorem at the quote character. -/
theorem c2_witness :
    (get_pair (Char.ofNat 34)).1 = (get_pair (Char.ofNat 34)).2 ∧
    find_balanced_pairs_pos ['a', Char.ofNat 34, 'b', Char.ofNat 34, 'c']
      (Char.ofNat 34) 2 = none :=
  ⟨by decide, c2_self_pair_no_result _ _ _ (by decide)⟩

/-- C4 counterexample: for the self-pairing quote character with the cursor
on the quote at offset 1, `find_nth_pairs_pos` returns the span `(1, 1)`,
whose open offset is not strictly less than its close offset. -/
theorem c4_counterexample :
    find_nth_pairs_pos ['a', Char.ofNat 34] (Char.ofNat 34) 1 1 =
      Except.ok (some (1, 1)) ∧ ¬(1 < 1) := by
  constructor
  · decide
  · omega

/-- C4 (amended): every span returned by `find_balanced_pairs_pos` satisfies
`open_offset < close_offset`; every span returned by `find_nth_pairs_pos`
satisfies `open_offset ≤ close_offset`, with strict inequality whenever
`get_pair ch` has distinct open and close members. -/
theorem c4_span_order :
    (∀ (text : List Char) (ch : Char) (pos o c : Nat),
      find_balanced_pairs_pos text ch pos = some (o, c) → o < c) ∧
    (∀ (text : List Char) (ch : Char) (pos n o c : Nat),
      find_nth_pairs_pos text ch pos n = Except.ok (some (o, c)) →
      o ≤ c ∧ ((get_pair ch).1 ≠ (get_pair ch).2 → o < c)) := by
  constructor
  · intro text ch pos o c h
    exact (find_balanced_eq_some text ch pos o c h).2.2
  · intro text ch pos n o c h
    obtain ⟨h1, h2, _, h4, h5⟩ := find_nth_eq_ok_some text ch pos n o c h
    refine ⟨by omega, fun hne => ?_⟩
    rcases Nat.lt_or_ge o c with hlt | hge
    · exact hlt
    · exfalso
      have : o = c := by omega
      subst this
      rw [h4] at h5
      exact hne (Option.some.inj h5)

/-- Witness for C4's amended theorem: a balanced-locator span with `1 < 3`
and an nth-locator span with `1 ≤ 1`. -/
theorem c4_witness : 1 < 3 ∧ 1 ≤ 1 :=
  ⟨c4_span_order.1 ['a', '(', 'b', ')'] '(' 2 1 3 (by decide),
   (c4_span_order.2 ['a', Char.ofNat 34] (Char.ofNat 34) 1 1 1 1 (by decide)).1⟩

/-- C5 counterexample: on the non-empty buffer `"x"` with `pos = 0`, the
backward search finds no open character, the `?` operator returns early, the
`pos - 1` subtraction is never evaluated, and the call completes normally
with `none` — so a call with `pos = 0` does not underflow for every
non-empty buffer, and the subtraction happens after the backward search,
not before any search. -/
theorem c5_counterexample :
    find_nth_pairs_pos ['x'] '(' 0 1 = Except.ok none ∧
    ¬find_nth_pairs_pos ['x'] '(' 0 1 = Except.error () := by decide

/-- C5 (amended): a call of `find_nth_pairs_pos` with `pos = 0` evaluates
`pos - 1` on a `usize` — an underflow panic — exactly when the preceding
backward search for the open character succeeds.  The subtraction sits after
the backward search and before the forward search: when the backward search
finds fewer than `n` occurrences of the open character, its `?` operator
returns early with absence and the subtraction is never evaluated. -/
theorem c5_pos_zero_panic (text : List Char) (ch : Char) (n : Nat) :
    find_nth_pairs_pos text ch 0 n = Except.error () ↔
      ∃ op, find_nth_prev text (get_pair ch).1 1 n = some op := by
  unfold find_nth_pairs_pos
  rw [show (0 : Nat) + 1 = 1 from rfl]
  cases hop : find_nth_prev text (get_pair ch).1 1 n with
  | none => simp
  | some op => simp

/-- Witness for C5's amended theorem: on the buffer `"("` with `n = 1` the
backward search succeeds at offset 0 and the call panics at `pos = 0`. -/
theorem c5_witness : find_nth_pairs_pos ['('] '(' 0 1 = Except.error () :=
  (c5_pos_zero_panic ['('] '(' 1).mpr ⟨0, by decide⟩

/-- C7: `get_surround_pos` ignores its `skip` argument — any two skip values
give identical results, because this component always pairs with the
balanced locator. -/
theorem c7_skip_irrelevant (text : List Char) (sel : List Nat) (ch : Char)
    (s1 s2 : Nat) :
    get_surround_pos text sel ch s1 = get_surround_pos text sel ch s2 := rfl

/-- C8: `get_pair` maps both members of every table entry to that entry and
maps any character in no entry to the self pair `(x, x)`. -/
theorem c8_get_pair_total :
    (∀ p ∈ PAIRS, get_pair p.1 = p ∧ get_pair p.2 = p) ∧
    (∀ x : Char, (∀ p ∈ PAIRS, p.1 ≠ x ∧ p.2 ≠ x) → get_pair x = (x, x)) := by
  constructor
  · decide
  · intro x hx
    unfold get_pair
    rw [List.find?_eq_none.mpr]
    · rfl
    · intro p hp
      have hne := hx p hp
      simp only [Bool.or_eq_true, beq_iff_eq, not_or]
      exact ⟨hne.1, hne.2⟩

/-- Witness for C8 at the table entry `('(', ')')` and the unmapped
character `'q'`. -/
theorem c8_witness : get_pair '(' = ('(', ')') ∧ get_pair 'q' = ('q', 'q') :=
  ⟨(c8_get_pair_total.1 ('(', ')') (by decide)).1,
   c8_get_pair_total.2 'q' (by decide)⟩

/-- C9: whenever `find_balanced_pairs_pos` returns a span `(o, c)`, the
buffer holds the open member of `get_pair ch` at `o` and the close member
at `c`. -/
theorem c9_round_trip (text : List Char) (ch : Char) (pos o c : Nat)
    (h : find_balanced_pairs_pos text ch pos = some (o, c)) :
    text[o]? = some (get_pair ch).1 ∧ text[c]? = some (get_pair ch).2 :=
  ⟨(find_balanced_eq_some text ch pos o c h).1,
   (find_balanced_eq_some text ch pos o c h).2.1⟩

/-- Witness for C9 on `"a(b)"` with the cursor between the parentheses. -/
theorem c9_witness :
    ['a', '(', 'b', ')'][1]? = some (get_pair '(').1 ∧
    ['a', '(', 'b', ')'][3]? = some (get_pair '(').2 :=
  c9_round_trip ['a', '(', 'b', ')'] '(' 2 1 3 (by decide)

/-- C10: on `"(so (many (good) text) here)"` with the cursor anywhere in
"good" (offsets 11–14), `find_nth_pairs_pos` returns the strictly widening
spans `(10,15)`, `(4,21)`, `(0,27)` at `n = 1, 2, 3` and absence for every
`n > 3`. -/
theorem c10_nth_widening (pos : Nat) (h1 : 11 ≤ pos) (h2 : pos ≤ 14) :
    find_nth_pairs_pos doc10 '(' pos 1 = Except.ok (some (10, 15)) ∧
    find_nth_pairs_pos doc10 '(' pos 2 = Except.ok (some (4, 21)) ∧
    find_nth_pairs_pos doc10 '(' pos 3 = Except.ok (some (0, 27)) ∧
    (4 < 10 ∧ 15 < 21 ∧ 0 < 4 ∧ 21 < 27) ∧
    (∀ n, 3 < n → find_nth_pairs_pos doc10 '(' pos n = Except.ok none) := by
  have key : ∀ q : Nat,
      ((List.range (q + 1)).reverse.filter
        fun i => decide (doc10[i]? = some (get_pair '(').1)) = [10, 4, 0] →
      ∀ n, 3 < n → find_nth_pairs_pos doc10 '(' q n = Except.ok none := by
    intro q hfil n hn
    have hprev : find_nth_prev doc10 (get_pair '(').1 (q + 1) n = none := by
      unfold find_nth_prev
      rw [hfil]
      exact List.getElem?_eq_none (by simp; omega)
    unfold find_nth_pairs_pos
    rw [hprev]
  interval_cases pos
  · exact ⟨by decide, by decide, by decide, by omega, key 11 (by decide)⟩
  · exact ⟨by decide, by decide, by decide, by omega, key 12 (by decide)⟩
  · exact ⟨by decide, by decide, by decide, by omega, key 13 (by decide)⟩
  · exact ⟨by decide, by decide, by decide, by omega, key 14 (by decide)⟩

/-- Witness for C10 at cursor offset 13 (on the second "o" of "good") and
depth overrun `n = 4`. -/
theorem c10_witness :
    find_nth_pairs_pos doc10 '(' 13 1 = Except.ok (some (10, 15)) ∧
    find_nth_pairs_pos doc10 '(' 13 4 = Except.ok none :=
  ⟨(c10_nth_widening 13 (by decide) (by decide)).1,
   (c10_nth_widening 13 (by decide) (by decide)).2.2.2.2 4 (by decide)⟩

/-! Machinery for C6: the accumulator-level behaviour of
`get_surround_pos_aux`. -/

lemma aux_cons_none (text : List Char) (ch : Char) (hd : Nat) (rest acc : List Nat)
    (hfd : find_balanced_pairs_pos text ch hd = none) :
    get_surround_pos_aux text ch acc (hd :: rest) = none := by
  simp only [get_surround_pos_aux]
  rw [hfd]

lemma aux_cons_some (text : List Char) (ch : Char) (hd : Nat) (rest acc : List Nat)
    (o c : Nat) (hfd : find_balanced_pairs_pos text ch hd = some (o, c)) :
    get_surround_pos_aux text ch acc (hd :: rest) =
      if o ∈ acc ∨ c ∈ acc then none
      else get_surround_pos_aux text ch (acc ++ [o, c]) rest := by
  simp only [get_surround_pos_aux]
  rw [hfd]

lemma aux_none_of_find_none (text : List Char) (ch : Char) :
    ∀ (sel acc : List Nat), (∃ x ∈ sel, find_balanced_pairs_pos text ch x = none) →
      get_surround_pos_aux text ch acc sel = none := by
  intro sel
  induction sel with
  | nil =>
    rintro acc ⟨x, hx, _⟩
    exact absurd hx (List.not_mem_nil x)
  | cons hd rest ih =>
    rintro acc ⟨x, hx, hfind⟩
    rcases List.mem_cons.mp hx with rfl | hx2
    · exact aux_cons_none text ch x rest acc hfind
    · cases hf : find_balanced_pairs_pos text ch hd with
      | none => exact aux_cons_none text ch hd rest acc hf
      | some p =>
        obtain ⟨o, c⟩ := p
        rw [aux_cons_some text ch hd rest acc o c hf]
        split_ifs with hov
        · rfl
        · exact ih _ ⟨x, hx2, hfind⟩

lemma aux_all_some (text : List Char) (ch : Char) :
    ∀ (sel : List Nat) (ps : List (Nat × Nat)) (acc : List Nat),
      sel.map (find_balanced_pairs_pos text ch) = ps.map some →
      (hits acc ps → get_surround_pos_aux text ch acc sel = none) ∧
      (¬hits acc ps → get_surround_pos_aux text ch acc sel = some (acc ++ flatPairs ps)) := by
  intro sel
  induction sel with
  | nil =>
    intro ps acc hmap
    have hps : ps = [] := by
      cases ps with
      | nil => rfl
      | cons p pt => simp at hmap
    subst hps
    exact ⟨fun h => h.elim, fun _ => by simp [get_surround_pos_aux, flatPairs]⟩
  | cons hd rest ih =>
    intro ps acc hmap
    cases ps with
    | nil => simp at hmap
    | cons p pt =>
      obtain ⟨o, c⟩ := p
      simp only [List.map_cons, List.cons.injEq] at hmap
      obtain ⟨hfd, hrest⟩ := hmap
      rw [aux_cons_some text ch hd rest acc o c hfd]
      constructor
      · intro hh
        split_ifs with hov
        · rfl
        · have hh2 : hits (acc ++ [o, c]) pt := by
            rcases (show (((o, c).1 ∈ acc ∨ (o, c).2 ∈ acc) ∨
                hits (acc ++ [(o, c).1, (o, c).2]) pt) from hh) with hh3 | hh3
            · exact absurd hh3 hov
            · exact hh3
          exact (ih pt (acc ++ [o, c]) hrest).1 hh2
      · intro hh
        have hov : ¬(o ∈ acc ∨ c ∈ acc) := fun habs => hh (Or.inl habs)
        have hh2 : ¬hits (acc ++ [o, c]) pt := fun habs => hh (Or.inr habs)
        rw [if_neg hov, (ih pt (acc ++ [o, c]) hrest).2 hh2]
        simp [flatPairs]

lemma hits_iff : ∀ (ps : List (Nat × Nat)) (acc : List Nat), hits acc ps ↔
    ∃ k, ∃ hk : k < ps.length,
      (ps.get ⟨k, hk⟩).1 ∈ acc ++ flatPairs (ps.take k) ∨
      (ps.get ⟨k, hk⟩).2 ∈ acc ++ flatPairs (ps.take k) := by
  intro ps
  induction ps with
  | nil => intro acc; simp [hits]
  | cons p pt ih =>
    intro acc
    obtain ⟨a, b⟩ := p
    constructor
    · intro h
      rcases (show ((a ∈ acc ∨ b ∈ acc) ∨ hits (acc ++ [a, b]) pt) from h) with h | h
      · exact ⟨0, by simp, by simpa [flatPairs] using h⟩
      · obtain ⟨k, hk, hmem⟩ := (ih (acc ++ [a, b])).mp h
        refine ⟨k + 1, by simpa using hk, ?_⟩
        simpa [flatPairs, List.append_assoc] using hmem
    · rintro ⟨k, hk, hmem⟩
      cases k with
      | zero =>
        exact Or.inl (by simpa [flatPairs] using hmem)
      | succ k =>
        refine Or.inr ((ih (acc ++ [a, b])).mpr ⟨k, by simpa using hk, ?_⟩)
        simpa [flatPairs, List.append_assoc] using hmem

lemma flatPairs_length : ∀ ps : List (Nat × Nat), (flatPairs ps).length = 2 * ps.length := by
  intro ps
  induction ps with
  | nil => rfl
  | cons p pt ih =>
    obtain ⟨a, b⟩ := p
    simp [flatPairs, ih]
    omega

/-- C6: `get_surround_pos` is all-or-nothing.  It returns absence when
`find_balanced_pairs_pos` returns absence at any cursor's head offset; when
every cursor resolves to a pair, it returns absence exactly when some pair's
open or close offset already appears among the offsets emitted for earlier
cursors, and otherwise returns the flat sequence of all `2 × (number of
cursors)` offsets in cursor order. -/
theorem c6_all_or_nothing (text : List Char) (ch : Char) (skp : Nat) (sel : List Nat) :
    ((∃ x ∈ sel, find_balanced_pairs_pos text ch x = none) →
      get_surround_pos text sel ch skp = none) ∧
    (∀ ps : List (Nat × Nat), sel.map (find_balanced_pairs_pos text ch) = ps.map some →
      ((get_surround_pos text sel ch skp = none ↔
        ∃ k, ∃ hk : k < ps.length,
          (ps.get ⟨k, hk⟩).1 ∈ flatPairs (ps.take k) ∨
          (ps.get ⟨k, hk⟩).2 ∈ flatPairs (ps.take k)) ∧
       ((∀ k (hk : k < ps.length),
          ¬(ps.get ⟨k, hk⟩).1 ∈ flatPairs (ps.take k) ∧
          ¬(ps.get ⟨k, hk⟩).2 ∈ flatPairs (ps.take k)) →
        get_surround_pos text sel ch skp = some (flatPairs ps) ∧
          (flatPairs ps).length = 2 * sel.length))) := by
  constructor
  · intro hex
    exact aux_none_of_find_none text ch sel [] hex
  · intro ps hmap
    have hlen : sel.length = ps.length := by
      have hcg := congrArg List.length hmap
      simpa using hcg
    have hiff := hits_iff ps []
    simp only [List.nil_append] at hiff
    constructor
    · constructor
      · intro hnone
        by_contra hex
        have hnh : ¬hits [] ps := fun hh => hex (hiff.mp hh)
        have hsome := (aux_all_some text ch sel ps [] hmap).2 hnh
        have hcontr : (some ([] ++ flatPairs ps) : Option (List Nat)) = none := by
          rw [← hsome]
          exact hnone
        exact Option.noConfusion hcontr
      · intro hex
        exact (aux_all_some text ch sel ps [] hmap).1 (hiff.mpr hex)
    · intro hno
      have hnh : ¬hits [] ps := by
        intro hh
        obtain ⟨k, hk, hmem⟩ := hiff.mp hh
        rcases hmem with hmem | hmem
        · exact (hno k hk).1 hmem
        · exact (hno k hk).2 hmem
      have hsome := (aux_all_some text ch sel ps [] hmap).2 hnh
      constructor
      · simpa using hsome
      · rw [flatPairs_length, hlen]

/-! Machinery for C1 and C3: the depth function's step lemmas, the discrete
crossing lemmas (descent to a level from above, ascent from below), and the
characterisation of both scans in terms of `depth`. -/

lemma depth_succ_none (text : List Char) (opn cls : Char) (i : Nat)
    (h : text[i]? = none) :
    depth text opn cls (i + 1) = depth text opn cls i := by
  simp [depth, h]

lemma depth_succ_opn (text : List Char) (opn cls : Char) (i : Nat)
    (h : text[i]? = some opn) :
    depth text opn cls (i + 1) = depth text opn cls i + 1 := by
  simp [depth, h, delta]

lemma depth_succ_cls (text : List Char) (opn cls : Char) (i : Nat)
    (h : text[i]? = some cls) (hne : ¬cls = opn) :
    depth text opn cls (i + 1) = depth text opn cls i - 1 := by
  simp [depth, h, delta, hne, sub_eq_add_neg]

lemma depth_succ_other (text : List Char) (opn cls c0 : Char) (i : Nat)
    (h : text[i]? = some c0) (h1 : ¬c0 = opn) (h2 : ¬c0 = cls) :
    depth text opn cls (i + 1) = depth text opn cls i := by
  simp [depth, h, delta, h1, h2]

lemma depth_succ_le (text : List Char) (opn cls : Char) (i : Nat) :
    depth text opn cls (i + 1) ≤ depth text opn cls i + 1 ∧
      depth text opn cls i - 1 ≤ depth text opn cls (i + 1) := by
  cases hc : text[i]? with
  | none =>
    have hd := depth_succ_none text opn cls i hc
    omega
  | some c0 =>
    have hd : depth text opn cls (i + 1) = depth text opn cls i + delta opn cls c0 := by
      simp [depth, hc]
    have hdel : delta opn cls c0 ≤ 1 ∧ -1 ≤ delta opn cls c0 := by
      unfold delta
      split_ifs <;> omega
    omega

lemma opn_of_depth_succ (text : List Char) (opn cls : Char) (i : Nat)
    (h : depth text opn cls (i + 1) = depth text opn cls i + 1) :
    text[i]? = some opn := by
  cases hc : text[i]? with
  | none =>
    have hd := depth_succ_none text opn cls i hc
    omega
  | some c0 =>
    have hd : depth text opn cls (i + 1) = depth text opn cls i + delta opn cls c0 := by
      simp [depth, hc]
    have hdel : delta opn cls c0 = 1 := by omega
    unfold delta at hdel
    by_cases h1 : c0 = opn
    · rw [h1]
    · exfalso
      rw [if_neg h1] at hdel
      by_cases h2 : c0 = cls
      · rw [if_pos h2] at hdel; omega
      · rw [if_neg h2] at hdel; omega

lemma cls_of_depth_succ (text : List Char) (opn cls : Char) (i : Nat)
    (h : depth text opn cls (i + 1) = depth text opn cls i - 1) :
    text[i]? = some cls := by
  cases hc : text[i]? with
  | none =>
    have hd := depth_succ_none text opn cls i hc
    omega
  | some c0 =>
    have hd : depth text opn cls (i + 1) = depth text opn cls i + delta opn cls c0 := by
      simp [depth, hc]
    have hdel : delta opn cls c0 = -1 := by omega
    unfold delta at hdel
    by_cases h2 : c0 = cls
    · rw [h2]
    · exfalso
      by_cases h1 : c0 = opn
      · rw [if_pos h1] at hdel; omega
      · rw [if_neg h1, if_neg h2] at hdel; omega

lemma descent_aux (text : List Char) (opn cls : Char) (D : Int) :
    ∀ (n a b : Nat), b - a = n → a ≤ b → b ≤ text.length →
      D < depth text opn cls a → depth text opn cls b ≤ D →
      ∃ j, a ≤ j ∧ j < b ∧ text[j]? = some cls ∧
        depth text opn cls j = D + 1 ∧ depth text opn cls (j + 1) = D ∧
        ∀ k, a ≤ k → k ≤ j → D < depth text opn cls k := by
  intro n
  induction n with
  | zero =>
    intro a b hn hab hb hda hdb
    exfalso
    have he : a = b := by omega
    subst he
    omega
  | succ n ih =>
    intro a b hn hab hb hda hdb
    have haltb : a < b := by
      rcases Nat.lt_or_ge a b with h | h
      · exact h
      · exfalso
        have he : a = b := by omega
        subst he
        omega
    by_cases hstep : depth text opn cls (a + 1) ≤ D
    · have hbnd := depth_succ_le text opn cls a
      have heq : depth text opn cls a = D + 1 ∧ depth text opn cls (a + 1) = D := by
        omega
      have hchar : text[a]? = some cls := cls_of_depth_succ text opn cls a (by omega)
      refine ⟨a, le_refl a, haltb, hchar, heq.1, heq.2, ?_⟩
      intro k h1 h2
      have hk : k = a := by omega
      subst hk
      omega
    · push_neg at hstep
      obtain ⟨j, h1, h2, h3, h4, h5, h6⟩ :=
        ih (a + 1) b (by omega) (by omega) hb hstep hdb
      refine ⟨j, by omega, h2, h3, h4, h5, ?_⟩
      intro k hk1 hk2
      rcases eq_or_lt_of_le hk1 with rfl | hlt
      · exact hda
      · exact h6 k (by omega) hk2

lemma descent (text : List Char) (opn cls : Char) (D : Int) (a b : Nat)
    (hab : a ≤ b) (hb : b ≤ text.length)
    (hda : D < depth text opn cls a) (hdb : depth text opn cls b ≤ D) :
    ∃ j, a ≤ j ∧ j < b ∧ text[j]? = some cls ∧
      depth text opn cls j = D + 1 ∧ depth text opn cls (j + 1) = D ∧
      ∀ k, a ≤ k → k ≤ j → D < depth text opn cls k :=
  descent_aux text opn cls D (b - a) a b rfl hab hb hda hdb

lemma ascent (text : List Char) (opn cls : Char) (D : Int) :
    ∀ b, b ≤ text.length → 0 < D → D ≤ depth text opn cls b →
      ∃ j, j < b ∧ text[j]? = some opn ∧ depth text opn cls j = D - 1 ∧
        depth text opn cls (j + 1) = D ∧
        ∀ k, j < k → k ≤ b → D ≤ depth text opn cls k := by
  intro b
  induction b with
  | zero =>
    intro _ hD hdb
    exfalso
    have h00 : depth text opn cls 0 = 0 := rfl
    omega
  | succ b ih =>
    intro hb hD hdb
    by_cases hstep : depth text opn cls b < D
    · have hbnd := depth_succ_le text opn cls b
      have heq : depth text opn cls (b + 1) = D ∧ depth text opn cls b = D - 1 := by
        omega
      have hchar : text[b]? = some opn := opn_of_depth_succ text opn cls b (by omega)
      refine ⟨b, by omega, hchar, heq.2, heq.1, ?_⟩
      intro k h1 h2
      have hk : k = b + 1 := by omega
      subst hk
      omega
    · push_neg at hstep
      obtain ⟨j, h1, h2, h3, h4, h5⟩ := ih (by omega) hD hstep
      refine ⟨j, by omega, h2, h3, h4, ?_⟩
      intro k hk1 hk2
      by_cases hke : k = b + 1
      · subst hke
        exact hdb
      · exact h5 k hk1 (by omega)

lemma first_shift {P : Nat → Prop} {m r : Nat} (hm : ¬P m) :
    (m ≤ r ∧ P r ∧ ∀ j, m ≤ j → j < r → ¬P j) ↔
    (m + 1 ≤ r ∧ P r ∧ ∀ j, m + 1 ≤ j → j < r → ¬P j) := by
  constructor
  · rintro ⟨h1, h2, h3⟩
    have hne : m ≠ r := fun he => hm (he ▸ h2)
    exact ⟨by omega, h2, fun j hj1 hj2 => h3 j (by omega) hj2⟩
  · rintro ⟨h1, h2, h3⟩
    refine ⟨by omega, h2, fun j hj1 hj2 => ?_⟩
    rcases eq_or_lt_of_le hj1 with rfl | hlt
    · exact hm
    · exact h3 j hlt hj2

lemma scan_open_eq_refOpen (text : List Char) (opn cls : Char) (D : Int) :
    ∀ (p skip : Nat), p ≤ text.length →
      (skip : Int) = depth text opn cls p - D →
      scan_open text opn cls p skip = refOpen text opn cls D p := by
  intro p
  induction p with
  | zero => intro skip _ _; rfl
  | succ p ih =>
    intro skip hp hsk
    have hplen : p < text.length := by omega
    have hc : text[p]? = some text[p] := List.getElem?_eq_getElem hplen
    by_cases h1 : text[p] = opn
    · have hd : depth text opn cls (p + 1) = depth text opn cls p + 1 :=
        depth_succ_opn text opn cls p (by rw [hc, h1])
      by_cases h2 : 0 < skip
      · have hcond : ¬(text[p]? = some opn ∧ depth text opn cls (p + 1) = D) := by
          rintro ⟨-, hdd⟩
          omega
        have lhs_eq : scan_open text opn cls (p + 1) skip =
            scan_open text opn cls p (skip - 1) := by
          simp only [scan_open, hc]
          rw [if_pos h1, if_pos h2]
        have rhs_eq : refOpen text opn cls D (p + 1) = refOpen text opn cls D p := by
          simp only [refOpen]
          rw [if_neg hcond]
        rw [lhs_eq, rhs_eq]
        exact ih (skip - 1) (by omega) (by omega)
      · have hdd : depth text opn cls (p + 1) = D := by omega
        have hcond : text[p]? = some opn ∧ depth text opn cls (p + 1) = D :=
          ⟨by rw [hc, h1], hdd⟩
        have lhs_eq : scan_open text opn cls (p + 1) skip = some p := by
          simp only [scan_open, hc]
          rw [if_pos h1, if_neg h2]
        have rhs_eq : refOpen text opn cls D (p + 1) = some p := by
          simp only [refOpen]
          rw [if_pos hcond]
        rw [lhs_eq, rhs_eq]
    · have hcond : ¬(text[p]? = some opn ∧ depth text opn cls (p + 1) = D) := by
        rintro ⟨hx, -⟩
        rw [hc] at hx
        exact h1 (Option.some.inj hx)
      have rhs_eq : refOpen text opn cls D (p + 1) = refOpen text opn cls D p := by
        simp only [refOpen]
        rw [if_neg hcond]
      by_cases h2 : text[p] = cls
      · have hd : depth text opn cls (p + 1) = depth text opn cls p - 1 :=
          depth_succ_cls text opn cls p (by rw [hc, h2]) (fun he => h1 (h2.trans he))
        have lhs_eq : scan_open text opn cls (p + 1) skip =
            scan_open text opn cls p (skip + 1) := by
          simp only [scan_open, hc]
          rw [if_neg h1, if_pos h2]
        rw [lhs_eq, rhs_eq]
        exact ih (skip + 1) (by omega) (by omega)
      · have hd : depth text opn cls (p + 1) = depth text opn cls p :=
          depth_succ_other text opn cls (text[p]) p hc h1 h2
        have lhs_eq : scan_open text opn cls (p + 1) skip =
            scan_open text opn cls p skip := by
          simp only [scan_open, hc]
          rw [if_neg h1, if_neg h2]
        rw [lhs_eq, rhs_eq]
        exact ih skip (by omega) (by omega)

lemma refOpen_eq_some_iff (text : List Char) (opn cls : Char) (D : Int) :
    ∀ p o, refOpen text opn cls D p = some o ↔
      (o < p ∧ (text[o]? = some opn ∧ depth text opn cls (o + 1) = D) ∧
        ∀ j, o < j → j < p →
          ¬(text[j]? = some opn ∧ depth text opn cls (j + 1) = D)) := by
  intro p
  induction p with
  | zero =>
    intro o
    simp only [refOpen]
    constructor
    · intro h
      exact Option.noConfusion h
    · rintro ⟨h1, -, -⟩
      exact absurd h1 (Nat.not_lt_zero o)
  | succ p ih =>
    intro o
    simp only [refOpen]
    split_ifs with hQ
    · constructor
      · intro h
        have ho : o = p := (Option.some.inj h).symm
        subst ho
        exact ⟨Nat.lt_succ_self o, hQ, fun j hj1 hj2 => by omega⟩
      · rintro ⟨h1, h2, h3⟩
        have ho : o = p := by
          by_contra hne
          have holt : o < p := by omega
          exact h3 p holt (Nat.lt_succ_self p) hQ
        subst ho
        rfl
    · rw [ih o]
      constructor
      · rintro ⟨h1, h2, h3⟩
        refine ⟨by omega, h2, fun j hj1 hj2 => ?_⟩
        by_cases hje : j = p
        · subst hje
          exact hQ
        · exact h3 j hj1 (by omega)
      · rintro ⟨h1, h2, h3⟩
        have hop : o ≠ p := by
          rintro rfl
          exact hQ h2
        exact ⟨by omega, h2, fun j hj1 hj2 => h3 j hj1 (by omega)⟩

lemma scan_close_eq_some_iff (text : List Char) (opn cls : Char) (hne : ¬opn = cls)
    (D : Int) :
    ∀ (l : List Char) (m : Nat) (cnt : Int), l = text.drop m → m ≤ text.length →
      cnt = depth text opn cls m - D → 0 < cnt →
      ∀ r, (scan_close opn cls l m cnt = some r ↔
        (m ≤ r ∧ (text[r]? = some cls ∧ depth text opn cls (r + 1) = D) ∧
          ∀ j, m ≤ j → j < r →
            ¬(text[j]? = some cls ∧ depth text opn cls (j + 1) = D))) := by
  intro l
  induction l with
  | nil =>
    intro m cnt hl hm hcnt hpos r
    simp only [scan_close]
    constructor
    · intro h
      exact Option.noConfusion h
    · rintro ⟨h1, ⟨h2, h3⟩, h4⟩
      exfalso
      obtain ⟨hrlen, -⟩ := List.getElem?_eq_some.mp h2
      have hml : text.length ≤ m := by
        have hlen := congrArg List.length hl
        simp only [List.length_nil, List.length_drop] at hlen
        omega
      omega
  | cons ch0 rest ih =>
    intro m cnt hl hm hcnt hpos r
    have hmlen : m < text.length := by
      by_contra hcon
      push_neg at hcon
      rw [List.drop_eq_nil_of_le hcon] at hl
      exact List.noConfusion hl
    have hch : text[m]? = some ch0 := by
      have h0 : (text.drop m)[0]? = some ch0 := by
        rw [← hl]
        simp
      rw [List.getElem?_drop] at h0
      simpa using h0
    have hrest : rest = text.drop (m + 1) := by
      calc rest = List.drop 1 (ch0 :: rest) := rfl
        _ = List.drop 1 (List.drop m text) := by rw [hl]
        _ = List.drop (m + 1) text := List.drop_drop 1 m text
    by_cases hc1 : ch0 = opn
    · have hd : depth text opn cls (m + 1) = depth text opn cls m + 1 :=
        depth_succ_opn text opn cls m (by rw [hch, hc1])
      have hlhs : scan_close opn cls (ch0 :: rest) m cnt =
          scan_close opn cls rest (m + 1) (cnt + 1) := by
        simp only [scan_close]
        rw [if_pos hc1]
      rw [hlhs, ih (m + 1) (cnt + 1) hrest (by omega) (by omega) (by omega) r]
      have hPm : ¬(text[m]? = some cls ∧ depth text opn cls (m + 1) = D) := by
        rintro ⟨hx, -⟩
        rw [hch] at hx
        exact hne (hc1.symm.trans (Option.some.inj hx))
      exact (@first_shift
        (fun j => text[j]? = some cls ∧ depth text opn cls (j + 1) = D) m r hPm).symm
    · by_cases hc2 : ch0 = cls
      · have hd : depth text opn cls (m + 1) = depth text opn cls m - 1 :=
          depth_succ_cls text opn cls m (by rw [hch, hc2]) (fun he => hc1 (hc2.trans he))
        by_cases hc3 : cnt - 1 = 0
        · have hlhs : scan_close opn cls (ch0 :: rest) m cnt = some m := by
            simp only [scan_close]
            rw [if_neg hc1, if_pos hc2, if_pos hc3]
          rw [hlhs]
          constructor
          · intro h
            have hrm : r = m := (Option.some.inj h).symm
            subst hrm
            exact ⟨le_refl r, ⟨by rw [hch, hc2], by omega⟩, fun j hj1 hj2 => by omega⟩
          · rintro ⟨h1, ⟨h2, h3⟩, h4⟩
            have hPm : text[m]? = some cls ∧ depth text opn cls (m + 1) = D :=
              ⟨by rw [hch, hc2], by omega⟩
            have hrm : r = m := by
              by_contra hrne
              exact h4 m (le_refl m) (by omega) hPm
            subst hrm
            rfl
        · have hlhs : scan_close opn cls (ch0 :: rest) m cnt =
              scan_close opn cls rest (m + 1) (cnt - 1) := by
            simp only [scan_close]
            rw [if_neg hc1, if_pos hc2, if_neg hc3]
          rw [hlhs, ih (m + 1) (cnt - 1) hrest (by omega) (by omega) (by omega) r]
          have hPm : ¬(text[m]? = some cls ∧ depth text opn cls (m + 1) = D) := by
            rintro ⟨-, hx⟩
            omega
          exact (@first_shift
        (fun j => text[j]? = some cls ∧ depth text opn cls (j + 1) = D) m r hPm).symm
      · have hd : depth text opn cls (m + 1) = depth text opn cls m :=
          depth_succ_other text opn cls ch0 m hch hc1 hc2
        have hlhs : scan_close opn cls (ch0 :: rest) m cnt =
            scan_close opn cls rest (m + 1) cnt := by
          simp only [scan_close]
          rw [if_neg hc1, if_neg hc2]
        rw [hlhs, ih (m + 1) cnt hrest (by omega) (by omega) (by omega) r]
        have hPm : ¬(text[m]? = some cls ∧ depth text opn cls (m + 1) = D) := by
          rintro ⟨hx, -⟩
          rw [hch] at hx
          exact hc2 (Option.some.inj hx)
        exact (@first_shift
        (fun j => text[j]? = some cls ∧ depth text opn cls (j + 1) = D) m r hPm).symm

lemma find_balanced_eq_of_scans_open (text : List Char) (ch : Char) (pos : Nat)
    (opn cls : Char) (c0 : Nat) (hpair : get_pair ch = (opn, cls))
    (h : text[pos]? = some opn)
    (hclose : scan_close opn cls (text.drop (pos + 1)) (pos + 1) 1 = some c0) :
    find_balanced_pairs_pos text ch pos = some (pos, c0) := by
  unfold find_balanced_pairs_pos
  simp only [hpair]
  rw [if_pos h]
  show (match scan_close opn cls (text.drop (pos + 1)) (pos + 1) 1 with
        | none => none
        | some cp => some (pos, cp)) = some (pos, c0)
  rw [hclose]

lemma find_balanced_eq_of_scans (text : List Char) (ch : Char) (pos : Nat)
    (opn cls : Char) (j c0 : Nat) (hpair : get_pair ch = (opn, cls))
    (h : ¬text[pos]? = some opn)
    (hopen : scan_open text opn cls pos 0 = some j)
    (hclose : scan_close opn cls (text.drop (j + 1)) (j + 1) 1 = some c0) :
    find_balanced_pairs_pos text ch pos = some (j, c0) := by
  unfold find_balanced_pairs_pos
  simp only [hpair]
  rw [if_neg h, hopen]
  show (match scan_close opn cls (text.drop (j + 1)) (j + 1) 1 with
        | none => none
        | some cp => some (j, cp)) = some (j, c0)
  rw [hclose]

lemma opener_matched (text : List Char) (opn cls : Char)
    (hbal : Balanced text opn cls) (pos : Nat) (hc : text[pos]? = some opn) :
    ∃ c0, Matched text opn cls pos c0 := by
  obtain ⟨hlt, -⟩ := List.getElem?_eq_some.mp hc
  have hstep : depth text opn cls (pos + 1) = depth text opn cls pos + 1 :=
    depth_succ_opn text opn cls pos hc
  have h0 : 0 ≤ depth text opn cls pos := hbal.2 pos (by omega)
  obtain ⟨j, hj1, hj2, hj3, hj4, hj5, hj6⟩ :=
    descent text opn cls (depth text opn cls pos) (pos + 1) text.length
      (by omega) (le_refl _) (by omega) (by rw [hbal.1]; omega)
  refine ⟨j, by omega, hj2, hc, hj3, hj5, ?_⟩
  intro k hk1 hk2
  exact hj6 k (by omega) hk1

lemma closer_matched (text : List Char) (opn cls : Char) (hne : ¬opn = cls)
    (hbal : Balanced text opn cls) (pos : Nat) (hc : text[pos]? = some cls) :
    ∃ o0, Matched text opn cls o0 pos := by
  obtain ⟨hlt, -⟩ := List.getElem?_eq_some.mp hc
  have hstep : depth text opn cls (pos + 1) = depth text opn cls pos - 1 :=
    depth_succ_cls text opn cls pos hc (fun he => hne he.symm)
  have h1 : 0 ≤ depth text opn cls (pos + 1) := hbal.2 (pos + 1) (by omega)
  obtain ⟨j, hj1, hj2, hj3, hj4, hj5⟩ :=
    ascent text opn cls (depth text opn cls pos) pos (by omega) (by omega) (le_refl _)
  refine ⟨j, hj1, hlt, hj2, hc, by omega, ?_⟩
  intro k hk1 hk2
  have := hj5 k hk2 hk1
  omega

lemma depth_mono_self (text : List Char) (opn cls : Char) (hself : opn = cls) :
    ∀ j i, i ≤ j → depth text opn cls i ≤ depth text opn cls j := by
  intro j
  induction j with
  | zero =>
    intro i hi
    have h0 : i = 0 := by omega
    subst h0
    exact le_refl _
  | succ j ih =>
    intro i hi
    by_cases hij : i = j + 1
    · subst hij
      exact le_refl _
    · have h1 := ih i (by omega)
      have h2 : depth text opn cls j ≤ depth text opn cls (j + 1) := by
        cases hc : text[j]? with
        | none =>
          have hd := depth_succ_none text opn cls j hc
          omega
        | some c0 =>
          have hd : depth text opn cls (j + 1) =
              depth text opn cls j + delta opn cls c0 := by
            simp [depth, hc]
          have hdel : 0 ≤ delta opn cls c0 := by
            unfold delta
            split_ifs with ha hb
            · omega
            · exact absurd (hb.trans hself.symm) ha
            · omega
          omega
      omega

lemma self_balanced_no_open (text : List Char) (opn cls : Char) (hself : opn = cls)
    (hbal : Balanced text opn cls) (i : Nat) : ¬text[i]? = some opn := by
  intro hc
  obtain ⟨hlt, -⟩ := List.getElem?_eq_some.mp hc
  have h1 : depth text opn cls (i + 1) = depth text opn cls i + 1 :=
    depth_succ_opn text opn cls i hc
  have h2 : 0 ≤ depth text opn cls i := hbal.2 i (by omega)
  have h3 : depth text opn cls (i + 1) ≤ depth text opn cls text.length :=
    depth_mono_self text opn cls hself text.length (i + 1) (by omega)
  have h4 := hbal.1
  omega

lemma balanced_find_inner (text : List Char) (ch : Char) (opn cls : Char)
    (hpair : get_pair ch = (opn, cls)) (hdist : ¬opn = cls)
    (hbal : Balanced text opn cls) (pos o c : Nat)
    (hm : Matched text opn cls o c) (ho : o ≤ pos) (hc : pos ≤ c) :
    ∃ o2 c2, find_balanced_pairs_pos text ch pos = some (o2, c2) ∧
      Matched text opn cls o2 c2 ∧ o2 ≤ pos ∧ pos ≤ c2 ∧
      ∀ o3 c3, Matched text opn cls o3 c3 → o3 ≤ pos → pos ≤ c3 →
        o3 ≤ o2 ∧ c2 ≤ c3 := by
  obtain ⟨hm1, hm2, hm3, hm4, hm5, hm6⟩ := hm
  have hposlen : pos < text.length := by omega
  by_cases hA : text[pos]? = some opn
  · have hstep : depth text opn cls (pos + 1) = depth text opn cls pos + 1 :=
      depth_succ_opn text opn cls pos hA
    have h0 : 0 ≤ depth text opn cls pos := hbal.2 pos (by omega)
    obtain ⟨c0, hc0a, hc0b, hc0char, hc0d, hc0d1, hc0int⟩ :=
      descent text opn cls (depth text opn cls pos) (pos + 1) text.length
        (by omega) (le_refl _) (by omega) (by rw [hbal.1]; omega)
    have hfc : scan_close opn cls (text.drop (pos + 1)) (pos + 1) 1 = some c0 := by
      rw [scan_close_eq_some_iff text opn cls hdist (depth text opn cls pos)
        (text.drop (pos + 1)) (pos + 1) 1 rfl (by omega) (by omega) (by omega) c0]
      refine ⟨by omega, ⟨hc0char, hc0d1⟩, ?_⟩
      intro j hj1 hj2
      rintro ⟨-, hjd⟩
      have := hc0int (j + 1) (by omega) (by omega)
      omega
    have hfind : find_balanced_pairs_pos text ch pos = some (pos, c0) :=
      find_balanced_eq_of_scans_open text ch pos opn cls c0 hpair hA hfc
    have hmat : Matched text opn cls pos c0 := by
      refine ⟨by omega, hc0b, hA, hc0char, hc0d1, ?_⟩
      intro k hk1 hk2
      exact hc0int k (by omega) hk1
    refine ⟨pos, c0, hfind, hmat, le_refl pos, by omega, ?_⟩
    intro o3 c3 hm3' ho3 hc3
    obtain ⟨hn1, hn2, hn3, hn4, hn5, hn6⟩ := hm3'
    refine ⟨ho3, ?_⟩
    by_contra hcc
    push_neg at hcc
    have hpc3 : pos < c3 := by
      rcases eq_or_lt_of_le hc3 with he | h
      · exfalso
        rw [← he] at hn4
        rw [hA] at hn4
        exact hdist (Option.some.inj hn4)
      · exact h
    have hdle : depth text opn cls (c3 + 1) ≤ depth text opn cls pos := by
      have h5 : depth text opn cls (c3 + 1) = depth text opn cls o3 := hn5
      rcases eq_or_lt_of_le ho3 with he | h
      · rw [he] at h5
        omega
      · have := hn6 pos (by omega) h
        omega
    have := hc0int (c3 + 1) (by omega) (by omega)
    omega
  · have ho' : o < pos := by
      rcases eq_or_lt_of_le ho with he | h
      · exfalso
        rw [he] at hm3
        exact hA hm3
      · exact h
    have hDgt : depth text opn cls o < depth text opn cls pos := hm6 pos hc ho'
    have h0o : 0 ≤ depth text opn cls o := hbal.2 o (by omega)
    obtain ⟨j, hj1, hj2, hj3, hj4, hj5⟩ :=
      ascent text opn cls (depth text opn cls pos) pos (by omega) (by omega) (le_refl _)
    have hso : scan_open text opn cls pos 0 = some j := by
      rw [scan_open_eq_refOpen text opn cls (depth text opn cls pos) pos 0
        (by omega) (by omega)]
      rw [refOpen_eq_some_iff text opn cls (depth text opn cls pos) pos j]
      refine ⟨hj1, ⟨hj2, hj4⟩, ?_⟩
      intro j2 hji1 hji2
      rintro ⟨hq1, hq2⟩
      have hd2 : depth text opn cls (j2 + 1) = depth text opn cls j2 + 1 :=
        depth_succ_opn text opn cls j2 hq1
      have := hj5 j2 hji1 (by omega)
      omega
    obtain ⟨c0, hc0a, hc0b, hc0char, hc0d, hc0d1, hc0int⟩ :=
      descent text opn cls (depth text opn cls j) (j + 1) text.length
        (by omega) (le_refl _) (by omega) (by rw [hbal.1]; omega)
    have hfc : scan_close opn cls (text.drop (j + 1)) (j + 1) 1 = some c0 := by
      rw [scan_close_eq_some_iff text opn cls hdist (depth text opn cls j)
        (text.drop (j + 1)) (j + 1) 1 rfl (by omega) (by omega) (by omega) c0]
      refine ⟨by omega, ⟨hc0char, hc0d1⟩, ?_⟩
      intro j2 hji1 hji2
      rintro ⟨-, hjd⟩
      have := hc0int (j2 + 1) (by omega) (by omega)
      omega
    have hfind := find_balanced_eq_of_scans text ch pos opn cls j c0 hpair hA hso hfc
    have hmat : Matched text opn cls j c0 := by
      refine ⟨by omega, hc0b, hj2, hc0char, hc0d1, ?_⟩
      intro k hk1 hk2
      exact hc0int k (by omega) hk1
    have hposc0 : pos ≤ c0 := by
      by_contra hx
      push_neg at hx
      have := hj5 (c0 + 1) (by omega) (by omega)
      omega
    refine ⟨j, c0, hfind, hmat, by omega, hposc0, ?_⟩
    intro o3 c3 hm3' ho3 hc3
    obtain ⟨hn1, hn2, hn3, hn4, hn5, hn6⟩ := hm3'
    have ho3pos : o3 < pos := by
      rcases eq_or_lt_of_le ho3 with he | h
      · exfalso
        rw [he] at hn3
        exact hA hn3
      · exact h
    have ho3j : o3 ≤ j := by
      by_contra hx
      push_neg at hx
      have h1 := hj5 o3 hx (by omega)
      have h2 := hn6 pos hc3 ho3pos
      omega
    refine ⟨ho3j, ?_⟩
    by_contra hx
    push_neg at hx
    have hd3 : depth text opn cls (c3 + 1) ≤ depth text opn cls j := by
      have h5 : depth text opn cls (c3 + 1) = depth text opn cls o3 := hn5
      rcases eq_or_lt_of_le ho3j with he | h
      · rw [he] at h5
        omega
      · have := hn6 j (by omega) h
        omega
    have := hc0int (c3 + 1) (by omega) (by omega)
    omega

/-- C1: in a buffer whose bracket text for `get_pair ch` is balanced, with a
distinct open/close pair, and a cursor strictly inside some matched pair,
`find_balanced_pairs_pos` returns a matched pair enclosing the cursor that
is innermost: every other enclosing matched pair contains it. -/
theorem c1_innermost (text : List Char) (ch : Char) (pos o c : Nat)
    (hdist : ¬(get_pair ch).1 = (get_pair ch).2)
    (hbal : Balanced text (get_pair ch).1 (get_pair ch).2)
    (hm : Matched text (get_pair ch).1 (get_pair ch).2 o c)
    (ho : o < pos) (hc : pos < c) :
    ∃ o2 c2, find_balanced_pairs_pos text ch pos = some (o2, c2) ∧
      Matched text (get_pair ch).1 (get_pair ch).2 o2 c2 ∧ o2 ≤ pos ∧ pos ≤ c2 ∧
      ∀ o3 c3, Matched text (get_pair ch).1 (get_pair ch).2 o3 c3 →
        o3 ≤ pos → pos ≤ c3 → o3 ≤ o2 ∧ c2 ≤ c3 :=
  balanced_find_inner text ch (get_pair ch).1 (get_pair ch).2 rfl hdist hbal
    pos o c hm (le_of_lt ho) (le_of_lt hc)

/-- Witness for C1 on `"((b))"` with the cursor on `b`, strictly inside the
inner pair `(1, 3)`. -/
theorem c1_witness :
    ∃ o2 c2, find_balanced_pairs_pos ['(', '(', 'b', ')', ')'] '(' 2 = some (o2, c2) ∧
      Matched ['(', '(', 'b', ')', ')'] (get_pair '(').1 (get_pair '(').2 o2 c2 ∧
      o2 ≤ 2 ∧ 2 ≤ c2 ∧
      ∀ o3 c3, Matched ['(', '(', 'b', ')', ')'] (get_pair '(').1 (get_pair '(').2 o3 c3 →
        o3 ≤ 2 → 2 ≤ c3 → o3 ≤ o2 ∧ c2 ≤ c3 :=
  c1_innermost ['(', '(', 'b', ')', ')'] '(' 2 1 3 (by decide) (by decide) (by decide)
    (by decide) (by decide)

/-- C3 counterexample: on the unbalanced buffer `"("` the cursor at offset 0
lies exactly on an opening delimiter, yet `find_balanced_pairs_pos` returns
`none` rather than that delimiter's pair — the claim fails without a balance
assumption. -/
theorem c3_counterexample :
    ['('][0]? = some (get_pair '(').1 ∧
    find_balanced_pairs_pos ['('] '(' 0 = none := by decide

/-- C3 (amended): in a buffer whose bracket text for `get_pair ch` is
balanced, a cursor lying exactly on an opening or closing delimiter makes
`find_balanced_pairs_pos` return the matched span of that very pair: the
returned opening offset is `pos` when `pos` holds the open member, and the
returned closing offset is `pos` when `pos` holds the close member. -/
theorem c3_on_delimiter (text : List Char) (ch : Char) (pos : Nat)
    (hbal : Balanced text (get_pair ch).1 (get_pair ch).2)
    (hdel : text[pos]? = some (get_pair ch).1 ∨ text[pos]? = some (get_pair ch).2) :
    ∃ o2 c2, find_balanced_pairs_pos text ch pos = some (o2, c2) ∧
      Matched text (get_pair ch).1 (get_pair ch).2 o2 c2 ∧
      (text[pos]? = some (get_pair ch).1 → o2 = pos) ∧
      (text[pos]? = some (get_pair ch).2 → c2 = pos) := by
  by_cases hself : (get_pair ch).1 = (get_pair ch).2
  · exfalso
    rcases hdel with h | h
    · exact self_balanced_no_open text (get_pair ch).1 (get_pair ch).2 hself hbal pos h
    · refine self_balanced_no_open text (get_pair ch).1 (get_pair ch).2 hself hbal pos ?_
      rw [hself]
      exact h
  · rcases hdel with hopn | hcls
    · obtain ⟨cd, hcd⟩ := opener_matched text (get_pair ch).1 (get_pair ch).2 hbal pos hopn
      obtain ⟨o2, c2, hf, hmat, ho2, hc2, hmin⟩ :=
        balanced_find_inner text ch (get_pair ch).1 (get_pair ch).2 rfl hself hbal
          pos pos cd hcd (le_refl pos) (le_of_lt hcd.1)
      obtain ⟨hminl, -⟩ := hmin pos cd hcd (le_refl pos) (le_of_lt hcd.1)
      have ho2e : o2 = pos := le_antisymm ho2 hminl
      refine ⟨o2, c2, hf, hmat, fun _ => ho2e, fun hcl => ?_⟩
      exfalso
      rw [hopn] at hcl
      exact hself (Option.some.inj hcl)
    · obtain ⟨od, hod⟩ :=
        closer_matched text (get_pair ch).1 (get_pair ch).2 hself hbal pos hcls
      obtain ⟨o2, c2, hf, hmat, ho2, hc2, hmin⟩ :=
        balanced_find_inner text ch (get_pair ch).1 (get_pair ch).2 rfl hself hbal
          pos od pos hod (le_of_lt hod.1) (le_refl pos)
      obtain ⟨-, hminr⟩ := hmin od pos hod (le_of_lt hod.1) (le_refl pos)
      have hc2e : c2 = pos := le_antisymm hminr hc2
      refine ⟨o2, c2, hf, hmat, fun hop => ?_, fun _ => hc2e⟩
      exfalso
      rw [hcls] at hop
      exact hself (Option.some.inj hop).symm

/-- Witness for C3's amended theorem on `"(b)"` with the cursor on the
opening parenthesis. -/
theorem c3_witness :
    ∃ o2 c2, find_balanced_pairs_pos ['(', 'b', ')'] '(' 0 = some (o2, c2) ∧
      Matched ['(', 'b', ')'] (get_pair '(').1 (get_pair '(').2 o2 c2 ∧
      (['(', 'b', ')'][0]? = some (get_pair '(').1 → o2 = 0) ∧
      (['(', 'b', ')'][0]? = some (get_pair '(').2 → c2 = 0) :=
  c3_on_delimiter ['(', 'b', ')'] '(' 0 (by decide) (Or.inl (by decide))

/-- Witness for C6 on the source's `test_get_surround_pos` scenario:
`"(some) (chars)\n(newline)"` with cursors at 2, 9, 20 yields the flat
offset list `[0, 5, 7, 13, 15, 23]`. -/
theorem c6_witness :
    get_surround_pos "(some) (chars)\n(newline)".toList [2, 9, 20] '(' 1 =
      some [0, 5, 7, 13, 15, 23] :=
  (((c6_all_or_nothing "(some) (chars)\n(newline)".toList '(' 1 [2, 9, 20]).2
      [(0, 5), (7, 13), (15, 23)] (by decide)).2 (by decide)).1

end Surround
